import Mathlib

/-!
Verification of the VecView lazy vector-expression library (VecView.h / VecView.cpp).

The development shallowly embeds the library: expression trees built by the
operator-overloading surface become an inductive type `Expr`; the duck-typed
"has a Dim() member" capability (`HasMemberDim`) becomes the boolean `Expr.hasDim`;
the SFINAE member `BinOp::Dim` / `UnaOp::Dim` and the `Dimention` resolution struct
become the partial function `Expr.dimGet` and `Dimention` (with `none` standing for
"the member does not exist", i.e. a C++ compile-time rejection); storage pointers
become storage identifiers into a mutable heap so that aliasing between the
assignment target and operands of its right-hand side is modelled faithfully.
-/

namespace VecView

/-- Storage identifier: stands for the base pointer a storage object wraps.
Two views alias exactly when they carry the same identifier. -/
abbrev Sid := Nat

/-- The mutable world: contents of every storage, indexed by storage id and
coordinate index (C++ `storage[i]`, an `int` index). -/
abbrev Heap (α : Type) := Sid → Int → α

/-- Expression trees of the library over element type α, as built by the
operator-overloading surface of VecView.h: leaves are `NumberView` (`num`),
`VectorView` (`vec`), `NoDimVectorView` (`noDimVec`) and `AssignableVectorView`
read access (`avec`); inner nodes are `BinOp<VectorAdd>` (`add`),
`BinOp<VectorSub>` (`sub`) and `UnaOp<VectorNeg>` (`neg`). -/
inductive Expr (α : Type) : Type where
  | num (v : α)
  | vec (sid : Sid) (dim : Int)
  | noDimVec (sid : Sid)
  | avec (sid : Sid) (dim : Int)
  | add (a b : Expr α)
  | sub (a b : Expr α)
  | neg (a : Expr α)

/-- Models `HasMemberDim<T>::value`: does the node type expose `int Dim() const`?
`NumberView` and `NoDimVectorView` do not; `VectorView` and `AssignableVectorView`
do; `BinOp` exposes it iff one of its operands does (its `Dim` member is
`enable_if`-guarded by `HasMemberDim<U>::value || HasMemberDim<V>::value`);
`UnaOp` exposes it iff its operand does. -/
def Expr.hasDim {α : Type} : Expr α → Bool
  | .num _ => false
  | .vec _ _ => true
  | .noDimVec _ => false
  | .avec _ _ => true
  | .add a b => a.hasDim || b.hasDim
  | .sub a b => a.hasDim || b.hasDim
  | .neg a => a.hasDim

/-- The value of the `Dim()` member of a node, when that member exists
(`none` when it does not, i.e. when calling `Dim()` would not compile).
For `BinOp` the guarded member returns `Dimention<U, V>::Dim(v1, v2)`:
first operand's `Dim()` if the first operand has one, else the second's.
For `UnaOp` it returns the operand's `Dim()`. -/
def Expr.dimGet {α : Type} : Expr α → Option Int
  | .num _ => none
  | .vec _ d => some d
  | .noDimVec _ => none
  | .avec _ d => some d
  | .add a b => if a.hasDim || b.hasDim then (if a.hasDim then a.dimGet else b.dimGet) else none
  | .sub a b => if a.hasDim || b.hasDim then (if a.hasDim then a.dimGet else b.dimGet) else none
  | .neg a => if a.hasDim then a.dimGet else none

/-- Models `Dimention<Arg1, Arg2>::Dim(a1, a2)`: if the first argument has a
`Dim` member use its value, otherwise use the second argument's. When neither
argument has the member the call does not compile (`none`). -/
def Dimention {α : Type} (a b : Expr α) : Option Int :=
  if a.hasDim then a.dimGet else b.dimGet

/-- Models `Evaluate(int i)` of every view and node class: `NumberView` returns
its stored scalar ignoring the index, the three vector views read
`storage[i]`, `BinOp<VectorAdd/VectorSub>` combine the operands pointwise and
`UnaOp<VectorNeg>` negates its operand pointwise. -/
def Expr.Evaluate {α : Type} [CommRing α] : Expr α → Heap α → Int → α
  | .num v, _, _ => v
  | .vec sid _, h, i => h sid i
  | .noDimVec sid, h, i => h sid i
  | .avec sid _, h, i => h sid i
  | .add a b, h, i => a.Evaluate h i + b.Evaluate h i
  | .sub a b, h, i => a.Evaluate h i - b.Evaluate h i
  | .neg a, h, i => -(a.Evaluate h i)

/-- Models `DotProd<Arg1, Arg2>::run`: resolves the length via
`Dimention<Arg1, Arg2>::Dim` (a compile error, `none`, when neither operand
has a `Dim` member), then accumulates `res += d1.Evaluate(i) * d2.Evaluate(i)`
for `i = 0, 1, ...` while `i` is below the resolved length, starting from
`type res = type(0)`. -/
def DotProdRun {α : Type} [CommRing α] (h : Heap α) (a b : Expr α) : Option α :=
  match Dimention a b with
  | none => none
  | some n =>
      some ((List.range n.toNat).foldl
        (fun res (i : Nat) => res + a.Evaluate h (i : Int) * b.Evaluate h (i : Int)) 0)

/-- Models the public `Dot(v1, v2)`: the eager reduction `DotProd::run`
implicitly wrapped into a `NumberView` (the declared return type). -/
def Dot {α : Type} [CommRing α] (h : Heap α) (a b : Expr α) : Option (Expr α) :=
  (DotProdRun h a b).map Expr.num

/-- Models `NumberView::operator T()`: only a `NumberView` converts back to a
bare scalar (`none` on any other node, where no such conversion exists). -/
def numToScalar {α : Type} : Expr α → Option α
  | .num v => some v
  | _ => none

/-- Models the dedicated same-type overload
`operator+(const NumberView<T> &, const NumberView<T> &)`: it converts both
operands back to scalars, adds them eagerly and wraps the result in a new
`NumberView` (the declared return type). -/
def numberViewAdd {α : Type} [CommRing α] (v1 v2 : α) : Expr α :=
  .num (v1 + v2)

/-- Point update of the heap: models `storage[i] = value` on the storage with
identifier `sid`. -/
def writeHeap {α : Type} (h : Heap α) (sid : Sid) (i : Int) (v : α) : Heap α :=
  fun s j => if s = sid then (if j = i then v else h s j) else h s j

/-- The data of an `AssignableVectorView`: its storage identifier and its
explicit dimension `dim`. -/
structure AssignableVectorView where
  sid : Sid
  dim : Int

/-- Models the loop body of `AssignableVectorView::operator=`:
`for (int i = 0; i < dim; ++i) storage[i] = expr.Evaluate(i);`.
Each `Evaluate` reads the heap as already modified by the preceding
iterations (the expression may alias the target). -/
def assignLoop {α : Type} [CommRing α] (sid : Sid) (d : Int) (e : Expr α) (h : Heap α) : Heap α :=
  (List.range d.toNat).foldl
    (fun hh (i : Nat) => writeHeap hh sid (i : Int) (e.Evaluate hh (i : Int))) h

/-- Models `AssignableVectorView::operator=(const Expr &)`: runs the loop over
the target's own `dim` and returns `*this` (the unchanged view) together with
the updated heap. -/
def assignOp {α : Type} [CommRing α] (t : AssignableVectorView) (e : Expr α) (h : Heap α) :
    AssignableVectorView × Heap α :=
  (t, assignLoop t.sid t.dim e h)

/-- Modelled from the spec wording of the assignment driver: iterate `i` from
`0` to `dim - 1` in increasing order, each write completing before the next
index is processed; stated as a recursion peeling the (last) step `n`. -/
def assignSpec {α : Type} [CommRing α] (sid : Sid) (e : Expr α) (h : Heap α) : Nat → Heap α
  | 0 => h
  | n + 1 =>
      writeHeap (assignSpec sid e h n) sid (n : Int)
        (e.Evaluate (assignSpec sid e h n) (n : Int))

/-- Modelled from the spec wording of chained dimension resolution: the
leftmost length-bearing leaf of the tree, found by a depth-first walk with
first-operand precedence. -/
def leftmostDimSpec {α : Type} : Expr α → Option Int
  | .num _ => none
  | .vec _ d => some d
  | .noDimVec _ => none
  | .avec _ d => some d
  | .add a b =>
      match leftmostDimSpec a with
      | some d => some d
      | none => leftmostDimSpec b
  | .sub a b =>
      match leftmostDimSpec a with
      | some d => some d
      | none => leftmostDimSpec b
  | .neg a => leftmostDimSpec a

/-- Models the C++ built-in floating-to-integral conversion performed by
`VectorCast<Arg1, int>::run`, namely `(int)x`: the fractional part is
discarded, i.e. the value is truncated toward zero. Stated computably on ℚ:
divide the magnitude of the numerator by the denominator and restore the
sign. -/
def cppIntOfRat (q : ℚ) : Int :=
  if 0 ≤ q.num then q.num / (q.den : Int) else -((-q.num) / (q.den : Int))

/-- Models `UnaOp<VectorCast, Arg1, int>::Evaluate(i)` for a fractional-valued
operand expression: `(int)v1.Evaluate(i)`. -/
def VectorCastRun (h : Heap ℚ) (e : Expr ℚ) (i : Int) : Int :=
  cppIntOfRat (e.Evaluate h i)

/-- Concrete test heap over ℤ mirroring the storages of the repository tests:
storage 1 holds [1, 2], storage 2 holds [3, 4], storage 3 holds [5, 6];
storage 0 is a zero-initialised assignment target; every other cell is 0. -/
def hT : Heap Int := fun s j =>
  if s = 1 then (if j = 0 then 1 else if j = 1 then 2 else 0)
  else if s = 2 then (if j = 0 then 3 else if j = 1 then 4 else 0)
  else if s = 3 then (if j = 0 then 5 else if j = 1 then 6 else 0)
  else 0

/-- The rational 7/10, built with an explicit reduced fraction so that the
kernel can evaluate it. -/
def q07 : ℚ := ⟨7, 10, by decide, by decide⟩

/-- The rational 23/10. -/
def q23 : ℚ := ⟨23, 10, by decide, by decide⟩

/-- The rational 0. -/
def qZ : ℚ := ⟨0, 1, by decide, by decide⟩

/-- Concrete fractional heap mirroring `test_cast`: storage 0 holds
[0.7, 2.3]; every other cell is 0. -/
def hQ : Heap ℚ := fun s j =>
  if s = 0 then (if j = 0 then q07 else if j = 1 then q23 else qZ) else qZ

/-- On nodes without a `Dim` member, `dimGet` is `none`. -/
theorem dimGet_eq_none_of_not_hasDim {α : Type} (e : Expr α) (he : e.hasDim = false) :
    e.dimGet = none := by
  cases e <;> simp_all [Expr.hasDim, Expr.dimGet]

/-- A node has a `Dim` member exactly when `dimGet` returns a value. -/
theorem hasDim_iff_isSome {α : Type} (e : Expr α) :
    e.hasDim = true ↔ (e.dimGet).isSome = true := by
  induction e with
  | num v => simp [Expr.hasDim, Expr.dimGet]
  | vec sid d => simp [Expr.hasDim, Expr.dimGet]
  | noDimVec sid => simp [Expr.hasDim, Expr.dimGet]
  | avec sid d => simp [Expr.hasDim, Expr.dimGet]
  | add a b iha ihb =>
      by_cases ha : a.hasDim = true <;> by_cases hb : b.hasDim = true <;>
        simp_all [Expr.hasDim, Expr.dimGet]
  | sub a b iha ihb =>
      by_cases ha : a.hasDim = true <;> by_cases hb : b.hasDim = true <;>
        simp_all [Expr.hasDim, Expr.dimGet]
  | neg a iha =>
      by_cases ha : a.hasDim = true <;> simp_all [Expr.hasDim, Expr.dimGet]

/-- Evaluation at index `i` only reads heap cells at index `i`. -/
theorem Evaluate_pointwise {α : Type} [CommRing α] (e : Expr α) (h1 h2 : Heap α) (i : Int)
    (hh : ∀ s, h1 s i = h2 s i) : e.Evaluate h1 i = e.Evaluate h2 i := by
  induction e with
  | num v => rfl
  | vec sid d => exact hh sid
  | noDimVec sid => exact hh sid
  | avec sid d => exact hh sid
  | add a b iha ihb => simp [Expr.Evaluate, iha, ihb]
  | sub a b iha ihb => simp [Expr.Evaluate, iha, ihb]
  | neg a iha => simp [Expr.Evaluate, iha]

/-- Reading back the cell just written returns the written value. -/
theorem writeHeap_same {α : Type} (h : Heap α) (sid : Sid) (i : Int) (v : α) :
    writeHeap h sid i v sid i = v := by
  simp [writeHeap]

/-- Reading any other cell is unaffected by a write. -/
theorem writeHeap_other {α : Type} (h : Heap α) (sid : Sid) (i : Int) (v : α)
    (s : Sid) (j : Int) (hne : s ≠ sid ∨ j ≠ i) : writeHeap h sid i v s j = h s j := by
  rcases hne with hne | hne
  · simp [writeHeap, hne]
  · by_cases hs : s = sid <;> simp [writeHeap, hs, hne]

/-- The `foldl` form of the assignment loop agrees with the step-peeling
recursion `assignSpec`. -/
theorem assignLoop_eq_assignSpec {α : Type} [CommRing α] (sid : Sid) (e : Expr α) (h : Heap α)
    (n : Nat) :
    (List.range n).foldl
        (fun hh (i : Nat) => writeHeap hh sid (i : Int) (e.Evaluate hh (i : Int))) h =
      assignSpec sid e h n := by
  induction n with
  | zero => rfl
  | succ m ih => rw [List.range_succ, List.foldl_append, ih]; rfl

/-- Frame property of the assignment loop: cells of other storages, negative
indices and indices at or beyond the iteration count are untouched. -/
theorem assignSpec_frame {α : Type} [CommRing α] (sid : Sid) (e : Expr α) (h : Heap α)
    (n : Nat) (s : Sid) (j : Int) (hs : s ≠ sid ∨ j < 0 ∨ (n : Int) ≤ j) :
    assignSpec sid e h n s j = h s j := by
  induction n with
  | zero => rfl
  | succ m ih =>
      have hm : s ≠ sid ∨ j < 0 ∨ (m : Int) ≤ j := by
        rcases hs with hs | hs | hs
        · exact Or.inl hs
        · exact Or.inr (Or.inl hs)
        · exact Or.inr (Or.inr (by push_cast at hs ⊢; omega))
      have hne : s ≠ sid ∨ j ≠ (m : Int) := by
        rcases hs with hs | hs | hs
        · exact Or.inl hs
        · exact Or.inr (by omega)
        · exact Or.inr (by push_cast at hs; omega)
      rw [assignSpec, writeHeap_other _ _ _ _ _ _ hne]
      exact ih hm

/-- Read-before-write: the value the loop stores at index `j` was computed on
a heap that still holds the original values at every cell of index `j`, so it
equals the evaluation on the initial heap. -/
theorem assignSpec_reads_original {α : Type} [CommRing α] (sid : Sid) (e : Expr α) (h : Heap α)
    (n : Nat) (j : Nat) (hj : j < n) :
    assignSpec sid e h n sid (j : Int) = e.Evaluate h (j : Int) := by
  induction n with
  | zero => omega
  | succ m ih =>
      by_cases hjm : j < m
      · have hne : (sid : Sid) ≠ sid ∨ (j : Int) ≠ (m : Int) := by
          refine Or.inr ?_
          intro hc
          have : j = m := by exact_mod_cast hc
          omega
        rw [assignSpec, writeHeap_other _ _ _ _ _ _ hne]
        exact ih hjm
      · have hjeq : j = m := by omega
        subst hjeq
        rw [assignSpec, writeHeap_same]
        exact Evaluate_pointwise e (assignSpec sid e h j) h (j : Int)
          (fun s => assignSpec_frame sid e h j s (j : Int) (Or.inr (Or.inr le_rfl)))

/-- Folding additions over `List.range` is the corresponding finite sum. -/
theorem foldl_add_eq_sum {α : Type} [CommRing α] (g : Nat → α) (c : α) (n : Nat) :
    (List.range n).foldl (fun res i => res + g i) c = c + ∑ i ∈ Finset.range n, g i := by
  induction n generalizing c with
  | zero => simp
  | succ m ih =>
      rw [List.range_succ, List.foldl_append, ih, Finset.sum_range_succ]
      simp [add_assoc]

/-- The eager dot-product reduction computes the finite sum of pointwise
products up to the resolved length. -/
theorem dotProdRun_eq_sum {α : Type} [CommRing α] (h : Heap α) (a b : Expr α) (n : Int)
    (hn : Dimention a b = some n) :
    DotProdRun h a b = some (∑ i ∈ Finset.range n.toNat,
      a.Evaluate h (i : Int) * b.Evaluate h (i : Int)) := by
  unfold DotProdRun
  rw [hn]
  dsimp only
  rw [foldl_add_eq_sum (fun i : Nat => a.Evaluate h (i : Int) * b.Evaluate h (i : Int)) 0 n.toNat]
  rw [zero_add]

/-- Every cell the assignment loop writes receives the evaluation of the
right-hand side on the initial heap, even when the expression aliases the
target. -/
theorem assignOp_reads_initial {α : Type} [CommRing α] (h : Heap α) (sid : Sid) (d : Int)
    (e : Expr α) (j : Int) (h0 : 0 ≤ j) (hj : j < d) :
    (assignOp ⟨sid, d⟩ e h).2 sid j = e.Evaluate h j := by
  have hjt : j = ((j.toNat : Nat) : Int) := by omega
  show assignLoop sid d e h sid j = e.Evaluate h j
  unfold assignLoop
  rw [assignLoop_eq_assignSpec, hjt]
  exact assignSpec_reads_original sid e h d.toNat j.toNat (by omega)

/-- C1: for every assignable target with length dim and every right-hand
expression e, `operator=` iterates i from 0 to dim - 1 in increasing order,
writing `e.Evaluate(i)` into the target storage at index i before moving to
the next index (captured by the step-peeling recursion `assignSpec`), and the
loop bound is the target's own dim: the result depends on the right-hand side
only through `Evaluate`, independent of any length the expression itself
exposes. -/
theorem C1_assignment_iterates_target_dim {α : Type} [CommRing α]
    (t : AssignableVectorView) (e : Expr α) (h : Heap α) :
    assignOp t e h = (t, assignSpec t.sid e h t.dim.toNat)
    ∧ ∀ e2 : Expr α, (∀ (h2 : Heap α) (i : Int), e.Evaluate h2 i = e2.Evaluate h2 i) →
        assignOp t e h = assignOp t e2 h := by
  constructor
  · unfold assignOp assignLoop
    rw [assignLoop_eq_assignSpec]
  · intro e2 hev
    unfold assignOp assignLoop
    have hfun :
        (fun hh (i : Nat) => writeHeap hh t.sid (i : Int) (e.Evaluate hh (i : Int))) =
          (fun hh (i : Nat) => writeHeap hh t.sid (i : Int) (e2.Evaluate hh (i : Int))) := by
      funext hh i
      rw [hev]
    rw [hfun]

/-- Witness for C1 at a concrete input: assigning the unbounded view over
storage 1 into the dim-2 target over storage 0 equals the spec recursion, and
replacing the right-hand side by a bounded view of the same storage with
self-reported length 5 changes nothing: the target's dim 2 governs. -/
theorem C1_witness :
    assignOp ⟨0, 2⟩ (Expr.noDimVec 1 : Expr Int) hT =
      (⟨0, 2⟩, assignSpec 0 (Expr.noDimVec 1) hT (2 : Int).toNat)
    ∧ assignOp ⟨0, 2⟩ (Expr.noDimVec 1 : Expr Int) hT =
        assignOp ⟨0, 2⟩ (Expr.vec 1 5) hT :=
  ⟨(C1_assignment_iterates_target_dim ⟨0, 2⟩ (Expr.noDimVec 1) hT).1,
   (C1_assignment_iterates_target_dim ⟨0, 2⟩ (Expr.noDimVec 1) hT).2
     (Expr.vec 1 5) (fun _ _ => rfl)⟩

/-- C2: for every two-operand combination the resolved length is the first
operand's whenever it exposes one and otherwise the second operand's, both
for binary Add/Sub nodes and for the dot product's `Dimention` resolution;
consequently the resolved length of any tree is the one of its leftmost
length-bearing leaf in a depth-first, first-operand-precedence walk. -/
theorem C2_dimension_first_operand_wins {α : Type} :
    (∀ a b : Expr α, a.hasDim = true →
        (Expr.add a b).dimGet = a.dimGet ∧ (Expr.sub a b).dimGet = a.dimGet
          ∧ Dimention a b = a.dimGet)
    ∧ (∀ a b : Expr α, a.hasDim = false →
        (Expr.add a b).dimGet = b.dimGet ∧ (Expr.sub a b).dimGet = b.dimGet
          ∧ Dimention a b = b.dimGet)
    ∧ (∀ e : Expr α, e.dimGet = leftmostDimSpec e) := by
  refine ⟨?_, ?_, ?_⟩
  · intro a b ha
    simp [Expr.dimGet, Dimention, ha]
  · intro a b ha
    by_cases hb : b.hasDim = true
    · simp [Expr.dimGet, Dimention, ha, hb]
    · have hb' : b.hasDim = false := by simpa using hb
      simp [Expr.dimGet, Dimention, ha, hb', dimGet_eq_none_of_not_hasDim b hb']
  · intro e
    induction e with
    | num v => rfl
    | vec sid d => rfl
    | noDimVec sid => rfl
    | avec sid d => rfl
    | add a b iha ihb =>
        by_cases ha : a.hasDim = true
        · have hsome : (a.dimGet).isSome = true := (hasDim_iff_isSome a).mp ha
          obtain ⟨d, hd⟩ := Option.isSome_iff_exists.mp hsome
          simp [Expr.dimGet, leftmostDimSpec, ha, ← iha, hd]
        · have ha' : a.hasDim = false := by simpa using ha
          have hnone : a.dimGet = none := dimGet_eq_none_of_not_hasDim a ha'
          by_cases hb : b.hasDim = true
          · simp [Expr.dimGet, leftmostDimSpec, ha', hb, ← iha, ← ihb, hnone]
          · have hb' : b.hasDim = false := by simpa using hb
            have hbn : b.dimGet = none := dimGet_eq_none_of_not_hasDim b hb'
            simp [Expr.dimGet, leftmostDimSpec, ha', hb', ← iha, ← ihb, hnone, hbn]
    | sub a b iha ihb =>
        by_cases ha : a.hasDim = true
        · have hsome : (a.dimGet).isSome = true := (hasDim_iff_isSome a).mp ha
          obtain ⟨d, hd⟩ := Option.isSome_iff_exists.mp hsome
          simp [Expr.dimGet, leftmostDimSpec, ha, ← iha, hd]
        · have ha' : a.hasDim = false := by simpa using ha
          have hnone : a.dimGet = none := dimGet_eq_none_of_not_hasDim a ha'
          by_cases hb : b.hasDim = true
          · simp [Expr.dimGet, leftmostDimSpec, ha', hb, ← iha, ← ihb, hnone]
          · have hb' : b.hasDim = false := by simpa using hb
            have hbn : b.dimGet = none := dimGet_eq_none_of_not_hasDim b hb'
            simp [Expr.dimGet, leftmostDimSpec, ha', hb', ← iha, ← ihb, hnone, hbn]
    | neg a iha =>
        by_cases ha : a.hasDim = true
        · simp [Expr.dimGet, leftmostDimSpec, ha, iha]
        · have ha' : a.hasDim = false := by simpa using ha
          have hnone : a.dimGet = none := dimGet_eq_none_of_not_hasDim a ha'
          simp [Expr.dimGet, leftmostDimSpec, ha', ← iha, hnone]

/-- Witness for C2 at concrete inputs: a bounded-first pair resolves to the
first dim, an unbounded-first pair to the second, and the chained tree
(noDim + vec 5) + vec 7 resolves to its leftmost length-bearing leaf. -/
theorem C2_witness :
    (Expr.add (Expr.vec 1 2) (Expr.vec 2 7) : Expr Int).dimGet =
      (Expr.vec 1 2 : Expr Int).dimGet
    ∧ (Expr.add (Expr.noDimVec 1) (Expr.vec 2 7) : Expr Int).dimGet =
        (Expr.vec 2 7 : Expr Int).dimGet
    ∧ (Expr.add (Expr.add (Expr.noDimVec 1) (Expr.vec 2 5)) (Expr.vec 3 7) : Expr Int).dimGet =
        leftmostDimSpec (Expr.add (Expr.add (Expr.noDimVec 1) (Expr.vec 2 5)) (Expr.vec 3 7) : Expr Int) :=
  ⟨((C2_dimension_first_operand_wins.1 (Expr.vec 1 2) (Expr.vec 2 7)) rfl).1,
   ((C2_dimension_first_operand_wins.2.1 (Expr.noDimVec 1) (Expr.vec 2 7)) rfl).1,
   C2_dimension_first_operand_wins.2.2 _⟩

/-- C3 counterexample: the claim demands that a tree in which no operand
exposes a length be rejected before any evaluation even when it is merely
assigned into a bounded target. On the concrete input of `test_bin_add`
(both operands unbounded views, target of dim 2) no member of the tree
exposes a length, yet the assignment evaluates and writes the elementwise
sums 4 and 6 over the target's previously zero cells. -/
theorem C3_counterexample_assign_unbounded :
    (Expr.add (Expr.noDimVec 1) (Expr.noDimVec 2) : Expr Int).hasDim = false
    ∧ (Expr.add (Expr.noDimVec 1) (Expr.noDimVec 2) : Expr Int).dimGet = none
    ∧ hT 0 0 = 0 ∧ hT 0 1 = 0
    ∧ (assignOp ⟨0, 2⟩ (Expr.add (Expr.noDimVec 1) (Expr.noDimVec 2) : Expr Int) hT).2 0 0 = 4
    ∧ (assignOp ⟨0, 2⟩ (Expr.add (Expr.noDimVec 1) (Expr.noDimVec 2) : Expr Int) hT).2 0 1 = 6 :=
  ⟨rfl, rfl, rfl, rfl, rfl, rfl⟩

/-- C3 (amended): an expression tree in which no operand exposes a length is
rejected at composition/type-checking time exactly where a length is
demanded; in particular the dot product of two such operands does not
compile (`Dimention`, `DotProd::run` and `Dot` are all `none`). Assignment
into a bounded target, by contrast, never requests the expression's length
and proceeds with the target's own dim. -/
theorem C3_unbounded_rejected_at_dot {α : Type} [CommRing α] (h : Heap α) (a b : Expr α)
    (ha : a.hasDim = false) (hb : b.hasDim = false) :
    Dimention a b = none ∧ DotProdRun h a b = none ∧ Dot h a b = none := by
  have h1 : Dimention a b = none := by
    unfold Dimention
    rw [ha]
    simpa using dimGet_eq_none_of_not_hasDim b hb
  refine ⟨h1, ?_, ?_⟩
  · unfold DotProdRun
    rw [h1]
  · unfold Dot DotProdRun
    rw [h1]
    rfl

/-- Witness for the amended C3 at a concrete input: the dot product of the
two unbounded views over storages 1 and 2 is rejected. -/
theorem C3_witness :
    Dimention (Expr.noDimVec 1 : Expr Int) (Expr.noDimVec 2) = none
    ∧ DotProdRun hT (Expr.noDimVec 1) (Expr.noDimVec 2) = none
    ∧ Dot hT (Expr.noDimVec 1) (Expr.noDimVec 2) = none :=
  C3_unbounded_rejected_at_dot hT (Expr.noDimVec 1) (Expr.noDimVec 2) rfl rfl

/-- C4: whenever the pair (a, b) resolves a length n, `Dot(a, b)` eagerly
computes the sum over i of `a.Evaluate(i) * b.Evaluate(i)` for i from 0 to
n - 1 and returns that scalar wrapped as a `NumberView` (`Expr.num`), which
evaluates as a scalar broadcast inside further expressions and converts back
to the bare sum. -/
theorem C4_dot_eager_sum {α : Type} [CommRing α] (h : Heap α) (a b : Expr α) (n : Int)
    (hn : Dimention a b = some n) :
    DotProdRun h a b = some (∑ i ∈ Finset.range n.toNat,
        a.Evaluate h (i : Int) * b.Evaluate h (i : Int))
    ∧ Dot h a b = some (Expr.num (∑ i ∈ Finset.range n.toNat,
        a.Evaluate h (i : Int) * b.Evaluate h (i : Int)))
    ∧ (∀ (h2 : Heap α) (i : Int),
        (Expr.num (∑ i ∈ Finset.range n.toNat,
          a.Evaluate h (i : Int) * b.Evaluate h (i : Int))).Evaluate h2 i =
            ∑ i ∈ Finset.range n.toNat, a.Evaluate h (i : Int) * b.Evaluate h (i : Int))
    ∧ numToScalar (Expr.num (∑ i ∈ Finset.range n.toNat,
        a.Evaluate h (i : Int) * b.Evaluate h (i : Int))) =
          some (∑ i ∈ Finset.range n.toNat,
            a.Evaluate h (i : Int) * b.Evaluate h (i : Int)) := by
  have hs := dotProdRun_eq_sum h a b n hn
  refine ⟨hs, ?_, fun h2 i => rfl, rfl⟩
  unfold Dot
  rw [hs]
  rfl

/-- Witness for C4 at the concrete input of `test_dot_prod`:
`Dot(Vec(v1, 2), Vec(v2))` with v1 = [1, 2], v2 = [3, 4] resolves length 2
and the sum evaluates to 11. -/
theorem C4_witness :
    DotProdRun hT (Expr.vec 1 2) (Expr.noDimVec 2) = some (∑ i ∈ Finset.range (2 : Int).toNat,
        (Expr.vec 1 2 : Expr Int).Evaluate hT (i : Int) *
          (Expr.noDimVec 2 : Expr Int).Evaluate hT (i : Int))
    ∧ DotProdRun hT (Expr.vec 1 2) (Expr.noDimVec 2) = some 11 :=
  ⟨(C4_dot_eager_sum hT (Expr.vec 1 2) (Expr.noDimVec 2) 2 rfl).1, rfl⟩

/-- C5: assignment is well-defined under aliasing between the target and its
right-hand expression because each coordinate is read strictly before it is
written and no coordinate's result observes another coordinate's
already-written value: every written cell holds the evaluation of the
right-hand side on the initial heap. In particular `t := -t` with t = [1, 2]
yields [-1, -2]. -/
theorem C5_coordinate_reads_precede_writes {α : Type} [CommRing α] (h : Heap α) (sid : Sid)
    (d : Int) (e : Expr α) (j : Int) (h0 : 0 ≤ j) (hj : j < d) :
    (assignOp ⟨sid, d⟩ e h).2 sid j = e.Evaluate h j :=
  assignOp_reads_initial h sid d e j h0 hj

/-- Witness for C5 at the concrete input of `test_una_neg`: the self
assignment `AVec(v1, 2) = -Vec(v1)` with v1 = [1, 2] stores -1 and -2. -/
theorem C5_witness :
    (assignOp ⟨1, 2⟩ (Expr.neg (Expr.noDimVec 1) : Expr Int) hT).2 1 0 = -1
    ∧ (assignOp ⟨1, 2⟩ (Expr.neg (Expr.noDimVec 1) : Expr Int) hT).2 1 1 = -2 :=
  ⟨Eq.trans (C5_coordinate_reads_precede_writes hT 1 2 (Expr.neg (Expr.noDimVec 1)) 0
      (by decide) (by decide)) rfl,
   Eq.trans (C5_coordinate_reads_precede_writes hT 1 2 (Expr.neg (Expr.noDimVec 1)) 1
      (by decide) (by decide)) rfl⟩

/-- C6: the dot product distributes over elementwise addition: whenever
(a + b, c), (a, c) and (b, c) all resolve the same length n, `Dot(a + b, c)`
equals the `NumberView` sum (via the dedicated scalar overload) of
`Dot(a, c)` and `Dot(b, c)`. -/
theorem C6_dot_distributes_over_add {α : Type} [CommRing α] (h : Heap α) (a b c : Expr α)
    (n : Int) (h1 : Dimention (Expr.add a b) c = some n) (h2 : Dimention a c = some n)
    (h3 : Dimention b c = some n) :
    ∃ x y : α, DotProdRun h a c = some x ∧ DotProdRun h b c = some y
      ∧ Dot h (Expr.add a b) c = some (numberViewAdd x y) := by
  refine ⟨_, _, dotProdRun_eq_sum h a c n h2, dotProdRun_eq_sum h b c n h3, ?_⟩
  unfold Dot
  rw [dotProdRun_eq_sum h (Expr.add a b) c n h1]
  show some (Expr.num _) = some (numberViewAdd _ _)
  unfold numberViewAdd
  congr 2
  rw [← Finset.sum_add_distrib]
  refine Finset.sum_congr rfl fun i _ => ?_
  show (a.Evaluate h (i : Int) + b.Evaluate h (i : Int)) * c.Evaluate h (i : Int) = _
  ring

/-- Witness for C6 at the concrete input of `test_dot_prod_for_chains`:
a = [1, 2], b = [3, 4], c = [5, 6] bounded; both sides give 17 + 39 = 56. -/
theorem C6_witness :
    (∃ x y : Int, DotProdRun hT (Expr.noDimVec 1) (Expr.vec 3 2) = some x
      ∧ DotProdRun hT (Expr.noDimVec 2) (Expr.vec 3 2) = some y
      ∧ Dot hT (Expr.add (Expr.noDimVec 1) (Expr.noDimVec 2)) (Expr.vec 3 2) =
          some (numberViewAdd x y))
    ∧ DotProdRun hT (Expr.noDimVec 1) (Expr.vec 3 2) = some 17
    ∧ DotProdRun hT (Expr.noDimVec 2) (Expr.vec 3 2) = some 39
    ∧ Dot hT (Expr.add (Expr.noDimVec 1) (Expr.noDimVec 2)) (Expr.vec 3 2) =
        some (Expr.num 56) :=
  ⟨C6_dot_distributes_over_add hT (Expr.noDimVec 1) (Expr.noDimVec 2) (Expr.vec 3 2) 2
      rfl rfl rfl,
   rfl, rfl, rfl⟩

/-- C7: `NumberView::Evaluate` returns the stored scalar for every index
without inspecting the index (negative indices included); consequently a
scalar broadcast assigned through a bounded target fills every coordinate
with the scalar, `Num(3) + [1, 2]` assigns to [4, 5] and a bare `Num(3)`
assigned into a length-2 target yields [3, 3]. -/
theorem C7_number_view_broadcast {α : Type} [CommRing α] :
    (∀ (h : Heap α) (v : α) (i : Int), (Expr.num v).Evaluate h i = v)
    ∧ (∀ (h : Heap α) (v : α) (sid : Sid) (d : Int) (j : Int), 0 ≤ j → j < d →
        (assignOp ⟨sid, d⟩ (Expr.num v) h).2 sid j = v)
    ∧ ((assignOp ⟨0, 2⟩ (Expr.add (Expr.num 3) (Expr.noDimVec 1) : Expr Int) hT).2 0 0 = 4
        ∧ (assignOp ⟨0, 2⟩ (Expr.add (Expr.num 3) (Expr.noDimVec 1) : Expr Int) hT).2 0 1 = 5)
    ∧ ((assignOp ⟨0, 2⟩ (Expr.num 3 : Expr Int) hT).2 0 0 = 3
        ∧ (assignOp ⟨0, 2⟩ (Expr.num 3 : Expr Int) hT).2 0 1 = 3) := by
  refine ⟨fun h v i => rfl, ?_, ⟨rfl, rfl⟩, ⟨rfl, rfl⟩⟩
  intro h v sid d j h0 hj
  exact assignOp_reads_initial h sid d (Expr.num v) j h0 hj

/-- Witness for C7 at a concrete input: assigning `Num(7)` into a dim-3
target fills coordinate 1 with 7. -/
theorem C7_witness :
    (assignOp ⟨5, 3⟩ (Expr.num 7 : Expr Int) hT).2 5 1 = 7 :=
  C7_number_view_broadcast.2.1 hT 7 5 3 1 (by decide) (by decide)

/-- C8: for every fractional expression e, `Cast<int>(e).Evaluate(i)` is the
conversion of `e.Evaluate(i)` to the integral type by truncation toward zero
(floor for nonnegative values, ceiling for negative ones), defined on every
rational input; elementwise on [0.7, 2.3] it yields [0, 2]. -/
theorem C8_cast_truncates_toward_zero :
    (∀ (h : Heap ℚ) (e : Expr ℚ) (i : Int), VectorCastRun h e i = cppIntOfRat (e.Evaluate h i))
    ∧ (∀ q : ℚ, cppIntOfRat q = if 0 ≤ q then ⌊q⌋ else ⌈q⌉)
    ∧ VectorCastRun hQ (Expr.noDimVec 0) 0 = 0
    ∧ VectorCastRun hQ (Expr.noDimVec 0) 1 = 2 := by
  refine ⟨fun h e i => rfl, ?_, rfl, rfl⟩
  intro q
  by_cases hq : (0 : ℚ) ≤ q
  · have hn : 0 ≤ q.num := Rat.num_nonneg.mpr hq
    rw [if_pos hq]
    unfold cppIntOfRat
    rw [if_pos hn, Rat.floor_def]
  · have hn : ¬(0 ≤ q.num) := fun hc => hq (Rat.num_nonneg.mp hc)
    rw [if_neg hq]
    unfold cppIntOfRat
    rw [if_neg hn]
    have hceil : (⌈q⌉ : Int) = -⌊-q⌋ := by
      rw [Int.floor_neg]
      ring
    rw [hceil, Rat.floor_def]
    simp [Rat.neg_num, Rat.neg_den]

/-- C9: the dedicated same-type overload adding two `NumberView`s computes
eagerly: it returns a `NumberView` holding a + b, never a lazy binary node;
it evaluates to a + b at every index and converts back to the bare scalar
a + b. -/
theorem C9_number_add_eager {α : Type} [CommRing α] (a b : α) :
    numberViewAdd a b = Expr.num (a + b)
    ∧ numToScalar (numberViewAdd a b) = some (a + b)
    ∧ (∀ (h : Heap α) (i : Int), (numberViewAdd a b).Evaluate h i = a + b)
    ∧ ∀ x y : Expr α, numberViewAdd a b ≠ Expr.add x y := by
  refine ⟨rfl, rfl, fun h i => rfl, fun x y hc => ?_⟩
  unfold numberViewAdd at hc
  exact Expr.noConfusion hc

/-- Witness for C9 at a concrete input: `Num(2) + Num(3)` converts back to
the scalar 5, as in `compile_usage`. -/
theorem C9_witness :
    numToScalar (numberViewAdd (2 : Int) 3) = some 5 :=
  Eq.trans (C9_number_add_eager (2 : Int) 3).2.1 rfl

/-- C10: assigning any expression into an `AssignableVectorView` whose dim is
zero or negative performs no iteration: the heap is returned unchanged (so
no cell of any storage is written and nothing is evaluated) and the
operation still returns the target view. -/
theorem C10_nonpositive_dim_no_writes {α : Type} [CommRing α] (t : AssignableVectorView)
    (e : Expr α) (h : Heap α) (hd : t.dim ≤ 0) : assignOp t e h = (t, h) := by
  unfold assignOp assignLoop
  have hz : t.dim.toNat = 0 := by omega
  rw [hz]
  rfl

/-- Witness for C10 at a concrete input: a dim -2 target absorbs an
assignment without any change to the heap. -/
theorem C10_witness :
    assignOp ⟨0, -2⟩ (Expr.add (Expr.noDimVec 1) (Expr.num 5) : Expr Int) hT = (⟨0, -2⟩, hT) :=
  C10_nonpositive_dim_no_writes ⟨0, -2⟩ (Expr.add (Expr.noDimVec 1) (Expr.num 5)) hT (by decide)

end VecView
